import Mathlib

/-!
Verification of the juno-core trading engine against its specification.

The Rust sources are shallowly embedded: machine integers (`u32`, `u64`)
become `Nat` (with explicit `% 2 ^ 64` where wrap-around matters), `f64`
values that only flow through field-free arithmetic become `ℚ`, and code
that can panic returns `Option`.  The floating-point detour inside
`ceil_multiple` is modelled exactly by a round-to-nearest-even function on
rationals with 53 significant bits.
-/

namespace Juno

/-- Advice enum from `common.rs` / `strategies/mod.rs`:
`None | Long | Short | Liquidate`. -/
inductive Advice where
  | none
  | long
  | short
  | liquidate
deriving DecidableEq, Repr, Fintype

/-- The `combine` function from `strategies/mod.rs`:
`None` dominates, equal advices pass through, unequal non-`None`
advices yield `Liquidate`. -/
def combine (advice1 advice2 : Advice) : Advice :=
  if advice1 = Advice.none ∨ advice2 = Advice.none then
    Advice.none
  else if advice1 = advice2 then
    advice1
  else
    Advice.liquidate

/-- The `Persistence` struct from `strategies/mod.rs` (identical in both
versions of the file present in the repository). -/
structure Persistence where
  age : ℕ
  level : ℕ
  return_previous : Bool
  potential : Advice
  previous : Advice
deriving DecidableEq, Repr

/-- `Persistence::new(level, return_previous)`. -/
def Persistence.new (level : ℕ) (return_previous : Bool) : Persistence :=
  { age := 0, level := level, return_previous := return_previous,
    potential := Advice.none, previous := Advice.none }

/-- `Persistence::maturity`. -/
def Persistence.maturity (s : Persistence) : ℕ :=
  s.level

/-- `Persistence::update`.  Returns the emitted advice together with the
successor state (the Rust method mutates `self`). -/
def Persistence.update (s : Persistence) (value : Advice) : Advice × Persistence :=
  if s.level = 0 then
    (value, s)
  else
    let s1 := if value ≠ s.potential then { s with age := 0, potential := value } else s
    let result :=
      if s1.age ≥ s1.level then s1.potential
      else if s1.return_previous then s1.previous
      else Advice.none
    let s2 := if s1.age ≥ s1.level then { s1 with previous := s1.potential } else s1
    (result, { s2 with age := min (s2.age + 1) s2.level })

/-- Feed a list of advices through `Persistence::update`, collecting the
emitted advices and the final state. -/
def Persistence.feed (s : Persistence) : List Advice → List Advice × Persistence
  | [] => ([], s)
  | v :: vs =>
    let r := s.update v
    let rest := r.2.feed vs
    (r.1 :: rest.1, rest.2)

/-- `MidTrendPolicy` enum from `strategies/mod.rs`. -/
inductive MidTrendPolicy where
  | current
  | previous
  | ignore
deriving DecidableEq, Repr

/-- The `MidTrend` struct from `strategies/mod.rs`. -/
structure MidTrend where
  policy : MidTrendPolicy
  previous : Option Advice
  enabled : Bool
deriving DecidableEq, Repr

/-- `MidTrend::new(policy)`. -/
def MidTrend.new (policy : MidTrendPolicy) : MidTrend :=
  { policy := policy, previous := Option.none, enabled := true }

/-- `MidTrend::maturity`: 0 for `Current`, 1 otherwise. -/
def MidTrend.maturity (s : MidTrend) : ℕ :=
  if s.policy = MidTrendPolicy.current then 0 else 1

/-- `MidTrend::update`. -/
def MidTrend.update (s : MidTrend) (value : Advice) : Advice × MidTrend :=
  if ¬s.enabled ∨ s.policy ≠ MidTrendPolicy.ignore then
    (value, s)
  else if s.previous = Option.none then
    (Advice.none, { s with previous := some value })
  else if some value ≠ s.previous then
    (value, { s with enabled := false })
  else
    (Advice.none, s)

/-- The `Candle` struct from `common.rs`.  The `f64` price fields are
modelled as rationals; `open` is a Lean keyword, hence the field `open_`. -/
structure Candle where
  time : ℕ
  open_ : ℚ
  high : ℚ
  low : ℚ
  close : ℚ
  volume : ℚ
deriving DecidableEq, Repr

/-- A candle whose four price fields all equal `c`; only `close` is read by
the stop-loss code. -/
def mkCandle (c : ℚ) : Candle :=
  { time := 0, open_ := c, high := c, low := c, close := c, volume := 0 }

/-- The `BasicStopLoss` struct from `trading/stop_loss.rs`. -/
structure BasicStopLoss where
  threshold : ℚ
  close_at_position : ℚ
  close : ℚ
deriving DecidableEq, Repr

/-- `BasicStopLoss::new(params)`: both stored closes initialize to `0.0`. -/
def BasicStopLoss.new (threshold : ℚ) : BasicStopLoss :=
  { threshold := threshold, close_at_position := 0, close := 0 }

/-- `BasicStopLoss::upside_hit`: `close ≤ close_at_position * (1 - threshold)`. -/
def BasicStopLoss.upside_hit (s : BasicStopLoss) : Bool :=
  s.close ≤ s.close_at_position * (1 - s.threshold)

/-- `BasicStopLoss::downside_hit`: `close ≥ close_at_position * (1 + threshold)`. -/
def BasicStopLoss.downside_hit (s : BasicStopLoss) : Bool :=
  s.close ≥ s.close_at_position * (1 + s.threshold)

/-- `BasicStopLoss::clear(candle)`. -/
def BasicStopLoss.clear (s : BasicStopLoss) (candle : Candle) : BasicStopLoss :=
  { s with close_at_position := candle.close }

/-- `BasicStopLoss::update(candle)`. -/
def BasicStopLoss.update (s : BasicStopLoss) (candle : Candle) : BasicStopLoss :=
  { s with close := candle.close }

/-- Feed a list of candles through `BasicStopLoss::update`. -/
def BasicStopLoss.feed (s : BasicStopLoss) (candles : List Candle) : BasicStopLoss :=
  candles.foldl BasicStopLoss.update s

/-- Adler-32 checksum of a byte string, as used for the moving-average tag
constants: `a = 1 + Σ bytes (mod 65521)`, `b` the running sum of the `a`
values `(mod 65521)`, checksum `b * 65536 + a`. -/
def adler32 (bytes : List ℕ) : ℕ :=
  let ab := bytes.foldl
    (fun ab c =>
      let a := (ab.1 + c) % 65521
      (a, (ab.2 + a) % 65521))
    (1, 0)
  ab.2 * 65536 + ab.1

/-- Constant `EMA_` from `lib.rs`, documented there as Adler32 of the
lowercased indicator name. -/
def EMA_ : ℕ := 40698164

/-- Constant `EMA2` from `lib.rs`. -/
def EMA2 : ℕ := 64160102

/-- Constant `SMA_` from `lib.rs`. -/
def SMA_ : ℕ := 43450690

/-- Constant `SMMA` from `lib.rs`. -/
def SMMA : ℕ := 72483247

/-- Constant `DEMA` from `lib.rs`. -/
def DEMA : ℕ := 66978200

/-- The `TraderParams` struct from `genetics/mod.rs`, the repository's
concrete `#[derive(Chromosome)]` target; its `f64` fields are modelled as
rationals. -/
structure TraderParams where
  missed_candle_policy : ℕ
  stop_loss : ℚ
  trail_stop_loss : Bool
  take_profit : ℚ
deriving DecidableEq, Repr

/-- Fresh gene values as drawn by the per-field generator functions of
`TraderParams`.  Modelled from the spec: the rand PRNG is external to the
repository and per-gene generators are pure functions of the rng, so a
`mutate(rng, i)` call is determined by the value generator `i` draws; those
drawn values are abstracted into this record. -/
structure TraderParamsDraw where
  missed_candle_policy : ℕ
  stop_loss : ℚ
  trail_stop_loss : Bool
  take_profit : ℚ
deriving DecidableEq, Repr

/-- `TraderParams::len()` as generated by `#[derive(Chromosome)]`: the field
count. -/
def TraderParams.len : ℕ := 4

/-- `TraderParams::cross(parent, i)` as generated by `derive_chromosome` in
`juno_derive_rs/src/lib.rs`: `i => self.field_i = parent.field_i`, panicking
(`Option.none`) on an out-of-range index.  `parent` is taken by shared
reference and never modified. -/
def TraderParams.cross (self parent : TraderParams) (i : ℕ) : Option TraderParams :=
  match i with
  | 0 => some { self with missed_candle_policy := parent.missed_candle_policy }
  | 1 => some { self with stop_loss := parent.stop_loss }
  | 2 => some { self with trail_stop_loss := parent.trail_stop_loss }
  | 3 => some { self with take_profit := parent.take_profit }
  | _ => Option.none

/-- `TraderParams::mutate(rng, i)` as generated by `derive_chromosome`:
`i => self.field_i = field_i(rng)`, with the generator draws abstracted. -/
def TraderParams.mutate (self : TraderParams) (draw : TraderParamsDraw) (i : ℕ) :
    Option TraderParams :=
  match i with
  | 0 => some { self with missed_candle_policy := draw.missed_candle_policy }
  | 1 => some { self with stop_loss := draw.stop_loss }
  | 2 => some { self with trail_stop_loss := draw.trail_stop_loss }
  | 3 => some { self with take_profit := draw.take_profit }
  | _ => Option.none

/-- Cross genes `0 .. len-1` from `parent` into `self`, in order. -/
def TraderParams.crossAll (self parent : TraderParams) : Option TraderParams :=
  (List.range TraderParams.len).foldl
    (fun acc i => acc.bind (fun s => s.cross parent i)) (some self)

/-- The `SigOscParams` struct from `strategies/sig_osc.rs`, generic over the
signal and oscillator sub-chromosomes. -/
structure SigOscParams (S O : Type) where
  sig : S
  osc : O
  osc_filter : ℕ
  persistence : ℕ
  mid_trend_policy : ℕ
deriving DecidableEq, Repr

/-- `SigOscParams::cross` from `strategies/sig_osc.rs`.  Unlike the derived
implementation, this manual implementation takes BOTH chromosomes by `&mut`
and `std::mem::swap`s the local genes, so the parent is modified too; the
function returns the updated `(self, other)` pair.  Sub-chromosome crossing
is delegated through the supplied `sCross`/`oCross` (with `S::len()` and
`O::len()` passed as `sLen`/`oLen`); an out-of-range index panics
(`Option.none`). -/
def SigOscParams.cross {S O : Type} (sLen oLen : ℕ)
    (sCross : S → S → ℕ → Option (S × S)) (oCross : O → O → ℕ → Option (O × O))
    (self other : SigOscParams S O) (i : ℕ) :
    Option (SigOscParams S O × SigOscParams S O) :=
  if i < sLen then
    match sCross self.sig other.sig i with
    | some (a, b) => some ({ self with sig := a }, { other with sig := b })
    | Option.none => Option.none
  else if i - sLen < oLen then
    match oCross self.osc other.osc (i - sLen) with
    | some (a, b) => some ({ self with osc := a }, { other with osc := b })
    | Option.none => Option.none
  else
    match i - sLen - oLen with
    | 0 => some ({ self with osc_filter := other.osc_filter },
        { other with osc_filter := self.osc_filter })
    | 1 => some ({ self with persistence := other.persistence },
        { other with persistence := self.persistence })
    | 2 => some ({ self with mid_trend_policy := other.mid_trend_policy },
        { other with mid_trend_policy := self.mid_trend_policy })
    | _ => Option.none

/-- Modelled from the spec: an arbitrary constituent `Signal` strategy for
the generic wrappers `Sig<S>`/`SigOsc<S, O>` (the concrete base signal
strategies are not among the sources).  It is abstracted by its reported
`maturity()` and by its advice after `n` updates on the ambient candle
stream; per the Strategy contract of the spec, strategies keep a candle
counter `t` saturated at `maturity()` with `mature() = t ≥ t1`, so the
constituent is mature after `n` updates exactly when `n ≥ maturity`. -/
structure SubSignal where
  maturity : ℕ
  advice : ℕ → Advice

/-- Modelled from the spec: an arbitrary constituent `Oscillator` strategy,
abstracted like `SubSignal`, with its `overbought()`/`oversold()` outputs
after `n` updates. -/
structure SubOscillator where
  maturity : ℕ
  overbought : ℕ → Bool
  oversold : ℕ → Bool

/-- `SigOsc::filter_enforce` from `strategies/sig_osc.rs`, with the
oscillator queried at clock `n` (it has been fed `n` candles). -/
def filterEnforce (osc : SubOscillator) (n : ℕ) (advice : Advice) : Advice :=
  match advice with
  | Advice.none => Advice.none
  | Advice.liquidate => Advice.liquidate
  | Advice.long => if osc.oversold n then Advice.long else Advice.liquidate
  | Advice.short => if osc.overbought n then Advice.short else Advice.liquidate

/-- `SigOsc::filter_prevent` from `strategies/sig_osc.rs`. -/
def filterPrevent (osc : SubOscillator) (n : ℕ) (advice : Advice) : Advice :=
  match advice with
  | Advice.none => Advice.none
  | Advice.liquidate => Advice.liquidate
  | Advice.long => if osc.overbought n then Advice.liquidate else Advice.long
  | Advice.short => if osc.oversold n then Advice.liquidate else Advice.short

/-- `SigOsc::filter`: dispatch on the `osc_filter` tag
(`OSC_FILTER_ENFORCE = 0`, `OSC_FILTER_PREVENT = 1`), panicking
(`Option.none`) on any other value. -/
def filterAt (osc_filter : ℕ) (osc : SubOscillator) (n : ℕ) (advice : Advice) :
    Option Advice :=
  if osc_filter = 0 then some (filterEnforce osc n advice)
  else if osc_filter = 1 then some (filterPrevent osc n advice)
  else Option.none

/-- The `SigOsc` strategy state from `strategies/sig_osc.rs`.  The field `n`
is the number of candles consumed so far (the constituents' internal
clocks). -/
structure SigOsc where
  sig : SubSignal
  osc : SubOscillator
  osc_filter : ℕ
  advice : Advice
  mid_trend : MidTrend
  persistence : Persistence
  t : ℕ
  t1 : ℕ
  n : ℕ

/-- `SigOsc::new`: `t1 = max(sig.maturity(), osc.maturity()) +
max(mid_trend.maturity(), persistence.maturity()) - 1` on `u32`; when every
constituent maturity is zero the subtraction underflows and panics in debug
builds, modelled as `Option.none`. -/
def SigOsc.new (sig : SubSignal) (osc : SubOscillator) (osc_filter : ℕ)
    (persistence : ℕ) (mid_trend_policy : MidTrendPolicy) : Option SigOsc :=
  let mid_trend := MidTrend.new mid_trend_policy
  let pers := Persistence.new persistence false
  if max sig.maturity osc.maturity + max mid_trend.maturity pers.maturity = 0 then
    Option.none
  else
    some
      { sig := sig, osc := osc, osc_filter := osc_filter, advice := Advice.none,
        mid_trend := mid_trend, persistence := pers, t := 0,
        t1 := max sig.maturity osc.maturity + max mid_trend.maturity pers.maturity - 1,
        n := 0 }

/-- `SigOsc::maturity`. -/
def SigOsc.maturity (s : SigOsc) : ℕ := s.t1

/-- `SigOsc::mature`: `t ≥ t1`. -/
def SigOsc.mature (s : SigOsc) : Bool := s.t ≥ s.t1

/-- `SigOsc::update`: saturating increment of `t`, update of the
constituents, and, once both constituents are mature, the
filter/mid-trend/persistence pipeline combined into the stored advice. -/
def SigOsc.update (s : SigOsc) : Option SigOsc :=
  let t := min (s.t + 1) s.t1
  let n := s.n + 1
  if s.sig.maturity ≤ n ∧ s.osc.maturity ≤ n then
    match filterAt s.osc_filter s.osc n (s.sig.advice n) with
    | Option.none => Option.none
    | some adv =>
      some
        { s with
            t := t, n := n,
            mid_trend := (s.mid_trend.update adv).2,
            persistence := (s.persistence.update adv).2,
            advice := combine (s.mid_trend.update adv).1 (s.persistence.update adv).1 }
  else
    some { s with t := t, n := n }

/-- Feed `k` candles through `SigOsc::update`. -/
def SigOsc.feedN (s : SigOsc) : ℕ → Option SigOsc
  | 0 => some s
  | k + 1 => (s.feedN k).bind SigOsc.update

/-- The `Sig` strategy state from `strategies/sig.rs`. -/
structure Sig where
  sig : SubSignal
  mid_trend : MidTrend
  persistence : Persistence
  advice : Advice
  t : ℕ
  t1 : ℕ
  n : ℕ

/-- `Sig::new`: `t1 = sig.maturity() + max(mid_trend.maturity(),
persistence.maturity()) - 1` on `u32`, with the same underflow panic
modelled as `Option.none`. -/
def Sig.new (sig : SubSignal) (persistence : ℕ) (mid_trend_policy : MidTrendPolicy) :
    Option Sig :=
  let mid_trend := MidTrend.new mid_trend_policy
  let pers := Persistence.new persistence false
  if sig.maturity + max mid_trend.maturity pers.maturity = 0 then
    Option.none
  else
    some
      { sig := sig, mid_trend := mid_trend, persistence := pers,
        advice := Advice.none, t := 0,
        t1 := sig.maturity + max mid_trend.maturity pers.maturity - 1, n := 0 }

/-- `Sig::maturity`. -/
def Sig.maturity (s : Sig) : ℕ := s.t1

/-- `Sig::mature`: `t ≥ t1`. -/
def Sig.mature (s : Sig) : Bool := s.t ≥ s.t1

/-- `Sig::update`. -/
def Sig.update (s : Sig) : Sig :=
  let t := min (s.t + 1) s.t1
  let n := s.n + 1
  if s.sig.maturity ≤ n then
    { s with
        t := t, n := n,
        mid_trend := (s.mid_trend.update (s.sig.advice n)).2,
        persistence := (s.persistence.update (s.sig.advice n)).2,
        advice := combine (s.mid_trend.update (s.sig.advice n)).1
          (s.persistence.update (s.sig.advice n)).1 }
  else
    { s with t := t, n := n }

/-- Feed `k` candles through `Sig::update`. -/
def Sig.feedN (s : Sig) : ℕ → Sig
  | 0 => s
  | k + 1 => (s.feedN k).update

/-- Invariant of reachable `SigOsc` states: the persistence stage never
echoes previous advice, `t` is the saturated candle count, `t1` is bounded
by the pipeline depth, the persistence age is bounded by the number of
pipeline activations, and a non-`None` stored advice implies the maturity
point has been reached. -/
def SigOscInv (s : SigOsc) : Prop :=
  s.persistence.return_previous = false ∧
  s.t = min s.n s.t1 ∧
  s.t1 ≤ max (max s.sig.maturity s.osc.maturity) 1 + s.persistence.level ∧
  (s.persistence.age = 0 ∨
    s.persistence.age + max (max s.sig.maturity s.osc.maturity) 1 ≤ s.n + 1) ∧
  (s.advice = Advice.none ∨ s.t1 ≤ s.n)

/-- Invariant of reachable `Sig` states, analogous to `SigOscInv`. -/
def SigInv (s : Sig) : Prop :=
  s.persistence.return_previous = false ∧
  s.t = min s.n s.t1 ∧
  s.t1 ≤ max s.sig.maturity 1 + s.persistence.level ∧
  (s.persistence.age = 0 ∨ s.persistence.age + max s.sig.maturity 1 ≤ s.n + 1) ∧
  (s.advice = Advice.none ∨ s.t1 ≤ s.n)

/-- A constituent signal reporting zero maturity. -/
def zeroSig : SubSignal := { maturity := 0, advice := fun _ => Advice.none }

/-- A constituent oscillator reporting zero maturity. -/
def zeroOsc : SubOscillator :=
  { maturity := 0, overbought := fun _ => false, oversold := fun _ => false }

/-- A constituent signal of maturity 2 that always advises `Long`. -/
def sigTwo : SubSignal := { maturity := 2, advice := fun _ => Advice.long }

/-- A constituent oscillator of maturity 1 that never reports extremes. -/
def oscOne : SubOscillator :=
  { maturity := 1, overbought := fun _ => false, oversold := fun _ => false }

/-- The state produced by `SigOsc.new sigTwo oscOne 0 0 current`. -/
def sigOscW : SigOsc :=
  { sig := sigTwo, osc := oscOne, osc_filter := 0, advice := Advice.none,
    mid_trend := MidTrend.new MidTrendPolicy.current,
    persistence := Persistence.new 0 false, t := 0, t1 := 1, n := 0 }

/-- The state after one update of `sigOscW`. -/
def sigOscW' : SigOsc := { sigOscW with t := 1, n := 1 }

/-- The state produced by `Sig.new sigTwo 0 current`. -/
def sigW : Sig :=
  { sig := sigTwo, mid_trend := MidTrend.new MidTrendPolicy.current,
    persistence := Persistence.new 0 false, advice := Advice.none,
    t := 0, t1 := 1, n := 0 }

/-- `floor_multiple` from `math.rs`: `value - (value % multiple)`.  The Rust
remainder panics when `multiple = 0`, modelled as `Option.none`. -/
def floor_multiple (value multiple : ℕ) : Option ℕ :=
  if multiple = 0 then Option.none else some (value - value % multiple)

/-- Round a rational to the nearest integer, ties to even. -/
def rhe (x : ℚ) : ℤ :=
  if x - ⌊x⌋ < 1 / 2 then ⌊x⌋
  else if 1 / 2 < x - ⌊x⌋ then ⌊x⌋ + 1
  else if Even ⌊x⌋ then ⌊x⌋ else ⌊x⌋ + 1

/-- Round a nonnegative rational to the nearest IEEE-754 binary64 value
(round to nearest, ties to even): scale into `[2^52, 2^53)`, round the
53-bit significand, and scale back.  Every value arising in `ceil_multiple`
lies far inside the normal range, so exponent clamping (overflow and
subnormals) is not modelled. -/
def flq (q : ℚ) : ℚ :=
  if q ≤ 0 then 0
  else ((rhe (q / 2 ^ (Int.log 2 q - 52)) : ℚ)) * 2 ^ (Int.log 2 q - 52)

/-- `ceil_multiple` from `math.rs`:
`f64::ceil(value as f64 / multiple as f64) as u64 * multiple`.  The
`u64 → f64` conversions and the `f64` division round to nearest (`flq`);
`f64::ceil` is exact on binary64 values; the `f64 → u64` cast truncates and
saturates at `u64::MAX`; the final multiplication wraps on `u64`.  For
`multiple = 0` both the Rust code and this model return 0 (division by zero
gives `inf`/`NaN`, the saturating cast gives `u64::MAX`/0, and the
multiplication by 0 gives 0). -/
def ceil_multiple (value multiple : ℕ) : ℕ :=
  min (⌈flq (flq value / flq multiple)⌉.toNat) (2 ^ 64 - 1) * multiple % 2 ^ 64

/-- Specification-side ceiling multiple, following the spec words
`ceil_multiple(v, m) = ⌈v/m⌉·m` with the exact mathematical ceiling. -/
def specCeilMultiple (value multiple : ℕ) : ℕ :=
  (value + multiple - 1) / multiple * multiple

/-! ### Lemmas about `Persistence` -/

theorem Persistence.update_same_lt {a k : ℕ} (hk : 0 < k) (ha : a < k) (v prev : Advice) :
    Persistence.update ⟨a, k, false, v, prev⟩ v = (Advice.none, ⟨a + 1, k, false, v, prev⟩) := by
  unfold Persistence.update
  simp [hk.ne', Nat.not_le.mpr ha, Nat.min_eq_left (Nat.succ_le_of_lt ha)]

theorem Persistence.update_same_eq {k : ℕ} (hk : 0 < k) (v prev : Advice) :
    Persistence.update ⟨k, k, false, v, prev⟩ v = (v, ⟨k, k, false, v, v⟩) := by
  unfold Persistence.update
  simp [hk.ne', Nat.min_eq_right (Nat.le_succ k)]

theorem Persistence.update_change {s : Persistence} (hk : 0 < s.level)
    (hrp : s.return_previous = false) {v : Advice} (hv : v ≠ s.potential) :
    s.update v = (Advice.none, ⟨1, s.level, false, v, s.previous⟩) := by
  unfold Persistence.update
  simp [hk.ne', hv, hrp, Nat.not_le.mpr hk, Nat.min_eq_left hk]

theorem Persistence.feed_cons (s : Persistence) (v : Advice) (vs : List Advice) :
    s.feed (v :: vs) =
      ((s.update v).1 :: ((s.update v).2.feed vs).1, ((s.update v).2.feed vs).2) :=
  rfl

theorem Persistence.feed_held (v : Advice) (k : ℕ) (hk : 0 < k) :
    ∀ (n a : ℕ) (prev : Advice), a + n = k →
      Persistence.feed ⟨a, k, false, v, prev⟩ (List.replicate (n + 1) v) =
        (List.replicate n Advice.none ++ [v], ⟨k, k, false, v, v⟩) := by
  intro n
  induction n with
  | zero =>
    intro a prev h
    have ha : a = k := by omega
    subst ha
    simp [Persistence.feed, Persistence.update_same_eq hk]
  | succ n ih =>
    intro a prev h
    have ha : a < k := by omega
    have hrec := ih (a + 1) prev (by omega)
    rw [List.replicate_succ, Persistence.feed_cons, Persistence.update_same_lt hk ha]
    dsimp only
    rw [hrec]
    simp [List.replicate_succ]

/-- C4: `Persistence(0, r)` is the identity in every state; from any state of
`Persistence(k, false)` with `k > 0`, an advice differing from the stored
potential yields `None` on that update and the following `k − 1` updates and
is emitted once held for `k + 1` consecutive updates; the concrete
`Persistence(2, false)` run on `[Long, Long, Long, Short, Short, Short,
Short]` emits `[None, None, Long, None, None, Short, Short]`. -/
theorem persistence_spec :
    (∀ (s : Persistence) (v : Advice), s.level = 0 → s.update v = (v, s)) ∧
    (∀ (k : ℕ) (s : Persistence) (v : Advice), 0 < k → s.level = k →
      s.return_previous = false → v ≠ s.potential →
      (s.feed (List.replicate (k + 1) v)).1 = List.replicate k Advice.none ++ [v]) ∧
    ((Persistence.new 2 false).feed
        [Advice.long, Advice.long, Advice.long, Advice.short, Advice.short,
          Advice.short, Advice.short]).1 =
      [Advice.none, Advice.none, Advice.long, Advice.none, Advice.none,
        Advice.short, Advice.short] := by
  refine ⟨?_, ?_, by decide⟩
  · intro s v h
    unfold Persistence.update
    simp [h]
  · intro k s v hk hlev hrp hv
    obtain ⟨a, lev, rp, pot, prev⟩ := s
    simp only at hlev hrp hv
    subst hlev
    subst hrp
    have hchange : Persistence.update ⟨a, lev, false, pot, prev⟩ v =
        (Advice.none, ⟨1, lev, false, v, prev⟩) :=
      Persistence.update_change (s := ⟨a, lev, false, pot, prev⟩) hk rfl hv
    have hheld := Persistence.feed_held v lev hk (lev - 1) 1 prev (by omega)
    rw [show lev - 1 + 1 = lev by omega] at hheld
    rw [List.replicate_succ, Persistence.feed_cons, hchange]
    dsimp only
    rw [hheld]
    dsimp only
    rw [show List.replicate lev Advice.none =
        Advice.none :: List.replicate (lev - 1) Advice.none by
      rw [← List.replicate_succ]
      congr 1
      omega]
    rw [List.cons_append]

/-- Witness for `persistence_spec` at `k = 1`. -/
theorem persistence_spec_witness :
    ((Persistence.new 1 false).feed (List.replicate 2 Advice.long)).1 =
      List.replicate 1 Advice.none ++ [Advice.long] :=
  persistence_spec.2.1 1 (Persistence.new 1 false) Advice.long (by decide) rfl rfl
    (by decide)

/-- C5: for `combine`, `None` dominates on either side, equal advices pass
through, and unequal non-`None` advices yield `Liquidate`. -/
theorem combine_spec :
    (∀ a : Advice, combine a Advice.none = Advice.none) ∧
    (∀ b : Advice, combine Advice.none b = Advice.none) ∧
    (∀ a : Advice, combine a a = a) ∧
    (∀ a b : Advice, a ≠ Advice.none → b ≠ Advice.none → a ≠ b →
      combine a b = Advice.liquidate) := by
  decide

/-- Witness for `combine_spec`: `combine(Long, Short) = Liquidate`. -/
theorem combine_spec_witness :
    combine Advice.long Advice.short = Advice.liquidate :=
  combine_spec.2.2.2 Advice.long Advice.short (by decide) (by decide) (by decide)

/-! ### Lemmas about `BasicStopLoss` -/

theorem BasicStopLoss.feed_eq (cs : List Candle) :
    ∀ (s : BasicStopLoss) (h : cs ≠ []),
      s.feed cs = { s with close := (cs.getLast h).close } := by
  induction cs with
  | nil => intro s h; cases h rfl
  | cons c cs ih =>
    intro s h
    cases cs with
    | nil => rfl
    | cons d ds =>
      have h2 : d :: ds ≠ [] := by simp
      have hstep : BasicStopLoss.feed s (c :: d :: ds) =
          BasicStopLoss.feed (s.update c) (d :: ds) := rfl
      rw [hstep, ih (s.update c) h2, List.getLast_cons h2]
      rfl

/-- C8: after `clear` on the entry candle and a nonempty sequence of
`update`s, `upside_hit` holds exactly when the latest close is at most
`entry.close * (1 − θ)` and `downside_hit` exactly when it is at least
`entry.close * (1 + θ)`; with `θ = 0.1` and entry close 100, the closes
`[95, 92, 90.1, 89.9]` make `upside_hit` true exactly at index 3. -/
theorem basicStopLoss_spec :
    (∀ (θ : ℚ) (entry : Candle) (cs : List Candle) (h : cs ≠ []),
      ((((BasicStopLoss.new θ).clear entry).feed cs).upside_hit = true ↔
        (cs.getLast h).close ≤ entry.close * (1 - θ)) ∧
      ((((BasicStopLoss.new θ).clear entry).feed cs).downside_hit = true ↔
        entry.close * (1 + θ) ≤ (cs.getLast h).close)) ∧
    ((((BasicStopLoss.new (1/10)).clear (mkCandle 100)).feed
        [mkCandle 95]).upside_hit = false ∧
      (((BasicStopLoss.new (1/10)).clear (mkCandle 100)).feed
        [mkCandle 95, mkCandle 92]).upside_hit = false ∧
      (((BasicStopLoss.new (1/10)).clear (mkCandle 100)).feed
        [mkCandle 95, mkCandle 92, mkCandle (901/10)]).upside_hit = false ∧
      (((BasicStopLoss.new (1/10)).clear (mkCandle 100)).feed
        [mkCandle 95, mkCandle 92, mkCandle (901/10),
          mkCandle (899/10)]).upside_hit = true) := by
  constructor
  · intro θ entry cs h
    rw [BasicStopLoss.feed_eq cs _ h]
    constructor
    · simp [BasicStopLoss.upside_hit, BasicStopLoss.clear, BasicStopLoss.new]
    · simp [BasicStopLoss.downside_hit, BasicStopLoss.clear, BasicStopLoss.new]
  · refine ⟨?_, ?_, ?_, ?_⟩ <;>
      norm_num [BasicStopLoss.feed, BasicStopLoss.update, BasicStopLoss.upside_hit,
        BasicStopLoss.clear, BasicStopLoss.new, mkCandle]

/-- Witness for `basicStopLoss_spec` at the concrete scenario list. -/
theorem basicStopLoss_spec_witness :
    (((BasicStopLoss.new (1/10)).clear (mkCandle 100)).feed
        [mkCandle 95, mkCandle 92, mkCandle (901/10),
          mkCandle (899/10)]).upside_hit = true ↔
      (899/10 : ℚ) ≤ 100 * (1 - 1/10) := by
  have h := (basicStopLoss_spec.1 (1/10) (mkCandle 100)
    [mkCandle 95, mkCandle 92, mkCandle (901/10), mkCandle (899/10)] (by simp)).1
  simpa [mkCandle] using h

/-- C10: immediately after `BasicStopLoss::new`, before any `clear` or
`update`, both hit predicates hold for every threshold, because the stored
closes both initialize to `0.0`. -/
theorem basicStopLoss_new_hit (θ : ℚ) :
    (BasicStopLoss.new θ).upside_hit = true ∧
      (BasicStopLoss.new θ).downside_hit = true ∧
      (BasicStopLoss.new θ).close = 0 ∧
      (BasicStopLoss.new θ).close_at_position = 0 := by
  refine ⟨?_, ?_, rfl, rfl⟩ <;>
    simp [BasicStopLoss.new, BasicStopLoss.upside_hit, BasicStopLoss.downside_hit]

/-- C9: each moving-average tag constant from `lib.rs` equals the Adler-32
checksum of the lowercase indicator name (byte lists are the UTF-8 bytes of
"ema", "ema2", "sma", "smma", "dema"). -/
theorem ma_tags_adler32 :
    adler32 [101, 109, 97] = EMA_ ∧
      adler32 [101, 109, 97, 50] = EMA2 ∧
      adler32 [115, 109, 97] = SMA_ ∧
      adler32 [115, 109, 109, 97] = SMMA ∧
      adler32 [100, 101, 109, 97] = DEMA := by
  decide

/-- C1: the derive-generated `Chromosome` implementation (here on
`TraderParams`) does copy gene `i` from the parent, leaves every other gene
and the parent untouched (the parent is never returned modified), crossing
all indices `0..len-1` from `B` into `A` yields `B`, and `mutate` rewrites
only gene `i`; but the manual `SigOscParams::cross` SWAPS the local gene
between self and parent, so at the `osc_filter` gene the parent comes back
modified, contradicting the claim (and the `Chromosome` trait signature
`cross(&mut self, parent: &Self, i)` in `genetics/mod.rs`). -/
theorem chromosome_cross_contract :
    (∀ a b : TraderParams,
      TraderParams.cross a b 0 =
          some { a with missed_candle_policy := b.missed_candle_policy } ∧
        TraderParams.cross a b 1 = some { a with stop_loss := b.stop_loss } ∧
        TraderParams.cross a b 2 =
          some { a with trail_stop_loss := b.trail_stop_loss } ∧
        TraderParams.cross a b 3 = some { a with take_profit := b.take_profit } ∧
        TraderParams.crossAll a b = some b) ∧
    (∀ (a : TraderParams) (d : TraderParamsDraw),
      TraderParams.mutate a d 0 =
          some { a with missed_candle_policy := d.missed_candle_policy } ∧
        TraderParams.mutate a d 1 = some { a with stop_loss := d.stop_loss } ∧
        TraderParams.mutate a d 2 =
          some { a with trail_stop_loss := d.trail_stop_loss } ∧
        TraderParams.mutate a d 3 = some { a with take_profit := d.take_profit }) ∧
    (SigOscParams.cross (S := Unit) (O := Unit) 0 0
        (fun _ _ _ => Option.none) (fun _ _ _ => Option.none)
        ⟨(), (), 0, 0, 0⟩ ⟨(), (), 1, 1, 1⟩ 0 =
      some (⟨(), (), 1, 0, 0⟩, ⟨(), (), 0, 1, 1⟩)) := by
  refine ⟨fun a b => ⟨rfl, rfl, rfl, rfl, rfl⟩,
    fun a d => ⟨rfl, rfl, rfl, rfl⟩, by decide⟩

/-! ### Lemmas for the `Sig`/`SigOsc` strategy wrappers -/

theorem Persistence.update_snd_fields (s : Persistence) (v : Advice) :
    ((s.update v).2).level = s.level ∧
      ((s.update v).2).return_previous = s.return_previous ∧
      ((s.update v).2).age ≤ s.age + 1 := by
  obtain ⟨a, lev, rp, pot, prev⟩ := s
  unfold Persistence.update
  dsimp only
  split_ifs <;> refine ⟨rfl, rfl, ?_⟩ <;> dsimp only <;> omega

theorem Persistence.update_fst_ne_none {s : Persistence} {v : Advice}
    (h : (s.update v).1 ≠ Advice.none) (hrp : s.return_previous = false) :
    s.level = 0 ∨ s.level ≤ s.age := by
  obtain ⟨a, lev, rp, pot, prev⟩ := s
  dsimp only at hrp
  subst hrp
  unfold Persistence.update at h
  dsimp only at h
  split_ifs at h with h1 h2 h3 h4 h5 h6 <;> simp_all

theorem combine_ne_none : ∀ a b : Advice,
    combine a b ≠ Advice.none → a ≠ Advice.none ∧ b ≠ Advice.none := by
  decide

theorem SigOsc.update_cases {s s' : SigOsc} (h : s.update = some s') :
    s'.t = min (s.t + 1) s.t1 ∧ s'.n = s.n + 1 ∧ s'.t1 = s.t1 ∧ s'.sig = s.sig ∧
      s'.osc = s.osc ∧
      ((s'.advice = s.advice ∧ s'.persistence = s.persistence) ∨
        (max s.sig.maturity s.osc.maturity ≤ s.n + 1 ∧ ∃ adv,
          s'.persistence = (s.persistence.update adv).2 ∧
          s'.advice = combine (s.mid_trend.update adv).1
            (s.persistence.update adv).1)) := by
  unfold SigOsc.update at h
  dsimp only at h
  split at h
  · rename_i hcond
    split at h
    · exact Option.noConfusion h
    · rename_i adv hadv
      cases h
      exact ⟨rfl, rfl, rfl, rfl, rfl, Or.inr ⟨by omega, adv, rfl, rfl⟩⟩
  · cases h
    exact ⟨rfl, rfl, rfl, rfl, rfl, Or.inl ⟨rfl, rfl⟩⟩

theorem Sig.update_fields (s : Sig) :
    s.update.t = min (s.t + 1) s.t1 ∧ s.update.n = s.n + 1 ∧ s.update.t1 = s.t1 ∧
      s.update.sig = s.sig ∧
      ((s.update.advice = s.advice ∧ s.update.persistence = s.persistence) ∨
        (s.sig.maturity ≤ s.n + 1 ∧ ∃ adv,
          s.update.persistence = (s.persistence.update adv).2 ∧
          s.update.advice = combine (s.mid_trend.update adv).1
            (s.persistence.update adv).1)) := by
  unfold Sig.update
  dsimp only
  split
  · rename_i hcond
    exact ⟨rfl, rfl, rfl, rfl, Or.inr ⟨hcond, s.sig.advice (s.n + 1), rfl, rfl⟩⟩
  · exact ⟨rfl, rfl, rfl, rfl, Or.inl ⟨rfl, rfl⟩⟩

theorem midTrend_new_maturity (mtp : MidTrendPolicy) :
    (MidTrend.new mtp).maturity = if mtp = MidTrendPolicy.current then 0 else 1 := rfl

theorem sigOscInv_new {sg : SubSignal} {osc : SubOscillator} {oscf pm : ℕ}
    {mtp : MidTrendPolicy} {s0 : SigOsc}
    (h : SigOsc.new sg osc oscf pm mtp = some s0) : SigOscInv s0 := by
  unfold SigOsc.new at h
  dsimp only at h
  split at h
  · exact Option.noConfusion h
  · cases h
    have hmtm : (MidTrend.new mtp).maturity = 0 ∨ (MidTrend.new mtp).maturity = 1 := by
      cases mtp <;> simp [MidTrend.new, MidTrend.maturity]
    refine ⟨rfl, by simp, ?_, Or.inl rfl, Or.inl rfl⟩
    dsimp only [SigOscInv, Persistence.maturity, Persistence.new]
    omega

theorem sigOscInv_update {s s' : SigOsc} (hs : SigOscInv s) (h : s.update = some s') :
    SigOscInv s' := by
  obtain ⟨h1, h2, h3, h4, h5⟩ := hs
  obtain ⟨ht, hn, ht1, hsig, hosc, hcase⟩ := SigOsc.update_cases h
  rcases hcase with ⟨hadv, hpers⟩ | ⟨hmat, adv, hpers, hadv⟩
  · refine ⟨by rw [hpers]; exact h1, ?_, ?_, ?_, ?_⟩
    · rw [ht, hn, ht1, h2]; omega
    · rw [ht1, hsig, hosc, hpers]; exact h3
    · rw [hpers, hn, hsig, hosc]; rcases h4 with h4 | h4 <;> omega
    · rw [hadv, hn, ht1]; rcases h5 with h5 | h5
      · exact Or.inl h5
      · exact Or.inr (by omega)
  · have hf := Persistence.update_snd_fields s.persistence adv
    refine ⟨by rw [hpers, hf.2.1]; exact h1, ?_, ?_, ?_, ?_⟩
    · rw [ht, hn, ht1, h2]; omega
    · rw [ht1, hsig, hosc, hpers, hf.1]; exact h3
    · rw [hpers, hn, hsig, hosc]
      rcases h4 with h4 | h4 <;> rcases hf with ⟨-, -, hage⟩ <;> omega
    · by_cases hA : s'.advice = Advice.none
      · exact Or.inl hA
      · refine Or.inr ?_
        rw [hn, ht1]
        rw [hadv] at hA
        have hp := (combine_ne_none _ _ hA).2
        have hlev := Persistence.update_fst_ne_none hp h1
        rcases h4 with h4 | h4 <;> omega

theorem sigOscInv_feedN {s0 : SigOsc} (h0 : SigOscInv s0) :
    ∀ (k : ℕ) (s : SigOsc), s0.feedN k = some s → SigOscInv s := by
  intro k
  induction k with
  | zero => intro s h; cases h; exact h0
  | succ k ih =>
    intro s h
    unfold SigOsc.feedN at h
    cases hk : s0.feedN k with
    | none => rw [hk] at h; exact Option.noConfusion h
    | some sm =>
      rw [hk] at h
      exact sigOscInv_update (ih sm hk) h

theorem sigInv_new {sg : SubSignal} {pm : ℕ} {mtp : MidTrendPolicy} {s0 : Sig}
    (h : Sig.new sg pm mtp = some s0) : SigInv s0 := by
  unfold Sig.new at h
  dsimp only at h
  split at h
  · exact Option.noConfusion h
  · cases h
    have hmtm : (MidTrend.new mtp).maturity = 0 ∨ (MidTrend.new mtp).maturity = 1 := by
      cases mtp <;> simp [MidTrend.new, MidTrend.maturity]
    refine ⟨rfl, by simp, ?_, Or.inl rfl, Or.inl rfl⟩
    dsimp only [SigInv, Persistence.maturity, Persistence.new]
    omega

theorem sigInv_update {s : Sig} (hs : SigInv s) : SigInv s.update := by
  obtain ⟨h1, h2, h3, h4, h5⟩ := hs
  obtain ⟨ht, hn, ht1, hsig, hcase⟩ := Sig.update_fields s
  rcases hcase with ⟨hadv, hpers⟩ | ⟨hmat, adv, hpers, hadv⟩
  · refine ⟨by rw [hpers]; exact h1, ?_, ?_, ?_, ?_⟩
    · rw [ht, hn, ht1, h2]; omega
    · rw [ht1, hsig, hpers]; exact h3
    · rw [hpers, hn, hsig]; rcases h4 with h4 | h4 <;> omega
    · rw [hadv, hn, ht1]; rcases h5 with h5 | h5
      · exact Or.inl h5
      · exact Or.inr (by omega)
  · have hf := Persistence.update_snd_fields s.persistence adv
    refine ⟨by rw [hpers, hf.2.1]; exact h1, ?_, ?_, ?_, ?_⟩
    · rw [ht, hn, ht1, h2]; omega
    · rw [ht1, hsig, hpers, hf.1]; exact h3
    · rw [hpers, hn, hsig]
      rcases h4 with h4 | h4 <;> rcases hf with ⟨-, -, hage⟩ <;> omega
    · by_cases hA : s.update.advice = Advice.none
      · exact Or.inl hA
      · refine Or.inr ?_
        rw [hn, ht1]
        rw [hadv] at hA
        have hp := (combine_ne_none _ _ hA).2
        have hlev := Persistence.update_fst_ne_none hp h1
        rcases h4 with h4 | h4 <;> omega

theorem sigInv_feedN {s0 : Sig} (h0 : SigInv s0) (k : ℕ) : SigInv (s0.feedN k) := by
  induction k with
  | zero => exact h0
  | succ k ih => exact sigInv_update ih

/-- C3: a freshly constructed `Sig` or `SigOsc` strategy, fed any number of
candles (with its constituents behaving per the Strategy maturity
contract), has `advice() = None` at every point where `mature()` is
false. -/
theorem strategies_premature_advice_none :
    (∀ (sg : SubSignal) (osc : SubOscillator) (oscf pm : ℕ)
        (mtp : MidTrendPolicy) (s0 : SigOsc),
      SigOsc.new sg osc oscf pm mtp = some s0 →
      ∀ (k : ℕ) (s : SigOsc), s0.feedN k = some s →
        s.mature = false → s.advice = Advice.none) ∧
    (∀ (sg : SubSignal) (pm : ℕ) (mtp : MidTrendPolicy) (s0 : Sig),
      Sig.new sg pm mtp = some s0 →
      ∀ k : ℕ, (s0.feedN k).mature = false → (s0.feedN k).advice = Advice.none) := by
  constructor
  · intro sg osc oscf pm mtp s0 hnew k s hfeed hmat
    obtain ⟨-, h2, -, -, h5⟩ := sigOscInv_feedN (sigOscInv_new hnew) k s hfeed
    rcases h5 with h5 | h5
    · exact h5
    · exfalso
      simp only [SigOsc.mature, ge_iff_le, decide_eq_false_iff_not, not_le] at hmat
      omega
  · intro sg pm mtp s0 hnew k hmat
    obtain ⟨-, h2, -, -, h5⟩ := sigInv_feedN (sigInv_new hnew) k
    rcases h5 with h5 | h5
    · exact h5
    · exfalso
      simp only [Sig.mature, ge_iff_le, decide_eq_false_iff_not, not_le] at hmat
      omega

/-- Witness for `strategies_premature_advice_none` on concrete immature
states. -/
theorem strategies_premature_witness :
    SigOsc.new sigTwo oscOne 0 0 MidTrendPolicy.current = some sigOscW ∧
      sigOscW.feedN 0 = some sigOscW ∧ sigOscW.mature = false ∧
      sigOscW.advice = Advice.none ∧
      Sig.new sigTwo 0 MidTrendPolicy.current = some sigW ∧
      (sigW.feedN 0).mature = false ∧ (sigW.feedN 0).advice = Advice.none :=
  ⟨rfl, rfl, rfl,
    strategies_premature_advice_none.1 sigTwo oscOne 0 0 MidTrendPolicy.current
      sigOscW rfl 0 sigOscW rfl rfl,
    rfl, rfl,
    strategies_premature_advice_none.2 sigTwo 0 MidTrendPolicy.current sigW rfl 0 rfl⟩

/-- C2 (amended): whenever the constituent maturities are not all zero (so
the `u32` subtraction in `new` does not underflow), `SigOsc::new` yields a
strategy with `maturity() = max(sig.maturity(), osc.maturity()) +
max(mid_trend.maturity(), persistence.maturity()) − 1`, where the mid-trend
maturity is 0 for `Current` and 1 otherwise and the persistence maturity is
the level; `t` increments by 1 per update saturating at `t1`; `mature()`
is `t ≥ t1`; and the analogous formula holds for `Sig::new`. -/
theorem sig_maturity_formula :
    (∀ (sg : SubSignal) (osc : SubOscillator) (oscf pm : ℕ) (mtp : MidTrendPolicy),
      max sg.maturity osc.maturity +
          max (if mtp = MidTrendPolicy.current then 0 else 1) pm ≠ 0 →
      ∃ s0 : SigOsc, SigOsc.new sg osc oscf pm mtp = some s0 ∧
        s0.maturity = max sg.maturity osc.maturity +
          max (if mtp = MidTrendPolicy.current then 0 else 1) pm - 1 ∧
        s0.t = 0) ∧
    (∀ s s' : SigOsc, s.update = some s' → s'.t = min (s.t + 1) s.t1) ∧
    (∀ s : SigOsc, s.mature = true ↔ s.t1 ≤ s.t) ∧
    (∀ (sg : SubSignal) (pm : ℕ) (mtp : MidTrendPolicy),
      sg.maturity + max (if mtp = MidTrendPolicy.current then 0 else 1) pm ≠ 0 →
      ∃ s0 : Sig, Sig.new sg pm mtp = some s0 ∧
        s0.maturity = sg.maturity +
          max (if mtp = MidTrendPolicy.current then 0 else 1) pm - 1 ∧
        s0.t = 0) ∧
    (∀ s : Sig, s.update.t = min (s.t + 1) s.t1) ∧
    (∀ s : Sig, s.mature = true ↔ s.t1 ≤ s.t) := by
  refine ⟨?_, ?_, ?_, ?_, ?_, ?_⟩
  · intro sg osc oscf pm mtp h
    unfold SigOsc.new
    dsimp only
    split
    · rename_i hc; exact absurd hc h
    · exact ⟨_, rfl, rfl, rfl⟩
  · exact fun s s' h => (SigOsc.update_cases h).1
  · intro s; simp [SigOsc.mature, ge_iff_le]
  · intro sg pm mtp h
    unfold Sig.new
    dsimp only
    split
    · rename_i hc; exact absurd hc h
    · exact ⟨_, rfl, rfl, rfl⟩
  · exact fun s => (Sig.update_fields s).1
  · intro s; simp [Sig.mature, ge_iff_le]

/-- C2 counterexample: with all constituent maturities zero (persistence
level 0, policy `Current`, zero-maturity constituents) the `u32` expression
`max(..) + max(..) − 1` underflows and `new` panics, producing no strategy
at all, so the claimed formula does not hold for every choice of
parameters. -/
theorem sig_new_all_zero_panics :
    SigOsc.new zeroSig zeroOsc 0 0 MidTrendPolicy.current = Option.none ∧
      Sig.new zeroSig 0 MidTrendPolicy.current = Option.none :=
  ⟨rfl, rfl⟩

/-- Witness for `sig_maturity_formula` at concrete parameters. -/
theorem sig_maturity_formula_witness :
    (∃ s0 : SigOsc, SigOsc.new sigTwo oscOne 0 0 MidTrendPolicy.current = some s0 ∧
      s0.maturity = max sigTwo.maturity oscOne.maturity +
        max (if MidTrendPolicy.current = MidTrendPolicy.current then 0 else 1) 0 - 1 ∧
      s0.t = 0) ∧
    sigOscW'.t = min (sigOscW.t + 1) sigOscW.t1 ∧
    (∃ s0 : Sig, Sig.new sigTwo 0 MidTrendPolicy.current = some s0 ∧
      s0.maturity = sigTwo.maturity +
        max (if MidTrendPolicy.current = MidTrendPolicy.current then 0 else 1) 0 - 1 ∧
      s0.t = 0) :=
  ⟨sig_maturity_formula.1 sigTwo oscOne 0 0 MidTrendPolicy.current (by decide),
    sig_maturity_formula.2.1 sigOscW sigOscW' rfl,
    sig_maturity_formula.2.2.2.1 sigTwo 0 MidTrendPolicy.current (by decide)⟩

/-- C7 counterexample: at `interval = 0` the Rust remainder panics, so
`floor_multiple(1, 0)` returns no value at all (and the bracketing
`t < floor + interval` is false there), refuting the claim as stated for
every `u64` interval. -/
theorem floor_multiple_interval_zero :
    floor_multiple 1 0 = Option.none ∧ floor_multiple 1 0 ≠ some (1 - 1 % 0) ∧
      ¬(1 < 1 - 1 % 0 + 0) := by
  decide

/-- C7 (amended): for every `u64` `t` and every `interval > 0`,
`floor_multiple(t, interval) = t − (t mod interval)` and the bracketing
`floor_multiple(t, interval) ≤ t < floor_multiple(t, interval) + interval`
holds. -/
theorem floor_multiple_spec (t interval : ℕ) (h : 0 < interval) :
    floor_multiple t interval = some (t - t % interval) ∧
      t - t % interval ≤ t ∧ t < t - t % interval + interval := by
  have h1 : t % interval < interval := Nat.mod_lt t h
  have h2 : t % interval ≤ t := Nat.mod_le t interval
  refine ⟨by simp [floor_multiple, h.ne'], by omega, by omega⟩

/-- Witness for `floor_multiple_spec` at `t = 7`, `interval = 3`. -/
theorem floor_multiple_spec_witness :
    floor_multiple 7 3 = some (7 - 7 % 3) ∧
      7 - 7 % 3 ≤ 7 ∧ 7 < 7 - 7 % 3 + 3 :=
  floor_multiple_spec 7 3 (by decide)

theorem rhe_intCast (k : ℤ) : rhe (k : ℚ) = k := by
  unfold rhe
  norm_num

theorem rhe_le_half (x : ℚ) : (rhe x : ℚ) ≤ x + 1 / 2 ∧ x - 1 / 2 ≤ (rhe x : ℚ) := by
  have h1 : (⌊x⌋ : ℚ) ≤ x := Int.floor_le x
  have h2 : x < ⌊x⌋ + 1 := Int.lt_floor_add_one x
  unfold rhe
  split_ifs <;> constructor <;> push_cast <;> linarith

theorem rhe_ge_floor (x : ℚ) : ⌊x⌋ ≤ rhe x := by
  unfold rhe
  split_ifs <;> omega

theorem flq_eq_scale {q : ℚ} {e : ℤ} (h0 : 0 < q) (h1 : (2 : ℚ) ^ (e + 52) ≤ q)
    (h2 : q < (2 : ℚ) ^ (e + 53)) :
    flq q = (rhe (q / 2 ^ e) : ℚ) * 2 ^ e := by
  have hlog : Int.log 2 q = e + 52 := by
    have hle : e + 52 ≤ Int.log 2 q := by
      rw [← Int.zpow_le_iff_le_log (by norm_num) h0]
      exact_mod_cast h1
    have hlt : Int.log 2 q < e + 53 := by
      rw [← Int.lt_zpow_iff_log_lt (by norm_num) h0]
      exact_mod_cast h2
    omega
  unfold flq
  rw [if_neg (not_le.mpr h0), hlog, show e + 52 - 52 = e from by omega]

theorem exists_scale {q : ℚ} (h0 : 0 < q) :
    ∃ e : ℤ, (2 : ℚ) ^ (e + 52) ≤ q ∧ q < (2 : ℚ) ^ (e + 53) := by
  refine ⟨Int.log 2 q - 52, ?_, ?_⟩
  · rw [show Int.log 2 q - 52 + 52 = Int.log 2 q from by omega]
    exact_mod_cast Int.zpow_log_le_self (b := 2) (by norm_num) h0
  · rw [show Int.log 2 q - 52 + 53 = Int.log 2 q + 1 from by omega]
    exact_mod_cast Int.lt_zpow_succ_log_self (b := 2) (by norm_num) q

theorem flq_bounds {q : ℚ} {e : ℤ} (h0 : 0 < q) (h1 : (2 : ℚ) ^ (e + 52) ≤ q)
    (h2 : q < (2 : ℚ) ^ (e + 53)) :
    q - 2 ^ e / 2 ≤ flq q ∧ flq q ≤ q + 2 ^ e / 2 := by
  rw [flq_eq_scale h0 h1 h2]
  have hpow : (0 : ℚ) < 2 ^ e := zpow_pos (by norm_num) e
  have hb := rhe_le_half (q / 2 ^ e)
  have hq : q / 2 ^ e * 2 ^ e = q := div_mul_cancel₀ q hpow.ne'
  have e1 : (q / 2 ^ e + 1 / 2) * 2 ^ e = q + 2 ^ e / 2 := by
    rw [add_mul, hq]; ring
  have e2 : (q / 2 ^ e - 1 / 2) * 2 ^ e = q - 2 ^ e / 2 := by
    rw [sub_mul, hq]; ring
  constructor
  · rw [← e2]; exact mul_le_mul_of_nonneg_right hb.2 hpow.le
  · rw [← e1]; exact mul_le_mul_of_nonneg_right hb.1 hpow.le

theorem flq_natCast {n : ℕ} (hn : n ≤ 2 ^ 53) : flq (n : ℚ) = n := by
  rcases Nat.eq_zero_or_pos n with h | h
  · subst h; simp [flq]
  · have h0 : (0 : ℚ) < n := by exact_mod_cast h
    obtain ⟨e, h1, h2⟩ := exists_scale h0
    rw [flq_eq_scale h0 h1 h2]
    have hx : ∃ k : ℤ, (n : ℚ) / 2 ^ e = (k : ℚ) := by
      rcases le_or_lt e 0 with he0 | he1
      · refine ⟨n * 2 ^ (-e).toNat, ?_⟩
        rw [div_eq_iff (by positivity)]
        push_cast
        rw [mul_assoc, ← zpow_natCast (2 : ℚ) (-e).toNat,
          ← zpow_add₀ (two_ne_zero : (2 : ℚ) ≠ 0),
          show (((-e).toNat : ℤ) + e) = 0 from by omega, zpow_zero, mul_one]
      · have he1' : e = 1 := by
          by_contra hc
          have he2 : 2 ≤ e := by omega
          have hmono : (2 : ℚ) ^ (54 : ℤ) ≤ (2 : ℚ) ^ (e + 52) :=
            zpow_le_zpow_right₀ (by norm_num) (by omega)
          have hn' : (n : ℚ) ≤ ((2 ^ 53 : ℕ) : ℚ) := by exact_mod_cast hn
          have h54 : ((2 : ℚ) ^ (54 : ℤ)) = ((2 ^ 54 : ℕ) : ℚ) := by
            rw [show (54 : ℤ) = ((54 : ℕ) : ℤ) from rfl, zpow_natCast]
            push_cast
            ring
          have := le_trans hmono h1
          rw [h54] at this
          have : (2 ^ 54 : ℕ) ≤ n := by exact_mod_cast this
          omega
        subst he1'
        have hge : ((2 ^ 53 : ℕ) : ℚ) ≤ (n : ℚ) := by
          have h53 : ((2 : ℚ) ^ ((1 : ℤ) + 52)) = ((2 ^ 53 : ℕ) : ℚ) := by
            rw [show (1 : ℤ) + 52 = ((53 : ℕ) : ℤ) from rfl, zpow_natCast]
            push_cast
            ring
          rw [h53] at h1
          exact h1
        have hn53 : n = 2 ^ 53 := le_antisymm hn (by exact_mod_cast hge)
        subst hn53
        refine ⟨2 ^ 52, ?_⟩
        rw [div_eq_iff (by positivity)]
        push_cast
        norm_num
    obtain ⟨k, hk⟩ := hx
    rw [hk, rhe_intCast, ← hk]
    exact div_mul_cancel₀ _ (by positivity)

theorem flq_pos {q : ℚ} (h0 : 0 < q) : 0 < flq q := by
  obtain ⟨e, h1, h2⟩ := exists_scale h0
  have hb := (flq_bounds h0 h1 h2).1
  have hp : (0 : ℚ) < 2 ^ e := zpow_pos (by norm_num) e
  have h252 : (1 : ℚ) ≤ (2 : ℚ) ^ (52 : ℤ) := by norm_num
  have hsplit : (2 : ℚ) ^ (e + 52) = 2 ^ e * 2 ^ (52 : ℤ) := by
    rw [← zpow_add₀ (two_ne_zero : (2 : ℚ) ≠ 0)]
  have hmul : 2 ^ e * 1 ≤ (2 : ℚ) ^ e * 2 ^ (52 : ℤ) :=
    mul_le_mul_of_nonneg_left h252 hp.le
  linarith

theorem flq_nat (m : ℕ) (hm : 1 ≤ m) :
    ∃ M : ℕ, flq (m : ℚ) = M ∧ 1 ≤ M ∧ (m ≤ 2 ^ 53 → M = m) ∧
      (2 ^ 53 < m → 2 ^ 53 ≤ M) := by
  rcases le_or_lt m (2 ^ 53) with hle | hgt
  · exact ⟨m, flq_natCast hle, hm, fun _ => rfl, fun h => absurd hle (not_le.mpr h)⟩
  · have h0 : (0 : ℚ) < m := by exact_mod_cast Nat.lt_of_lt_of_le (by norm_num) hgt.le
    obtain ⟨e, h1, h2⟩ := exists_scale h0
    rw [flq_eq_scale h0 h1 h2]
    have he1 : 1 ≤ e := by
      by_contra hc
      push_neg at hc
      have he0 : e + 53 ≤ 53 := by omega
      have hmono : (2 : ℚ) ^ (e + 53) ≤ (2 : ℚ) ^ (53 : ℤ) :=
        zpow_le_zpow_right₀ (by norm_num) he0
      have h53 : ((2 : ℚ) ^ (53 : ℤ)) = ((2 ^ 53 : ℕ) : ℚ) := by
        rw [show (53 : ℤ) = ((53 : ℕ) : ℤ) from rfl, zpow_natCast]
        push_cast
        ring
      have hlt : (m : ℚ) < ((2 ^ 53 : ℕ) : ℚ) := by
        calc (m : ℚ) < (2 : ℚ) ^ (e + 53) := h2
        _ ≤ _ := by rw [h53] at hmono; exact hmono
      have : m < 2 ^ 53 := by exact_mod_cast hlt
      omega
    have hx52 : ((2 ^ 52 : ℕ) : ℚ) ≤ (m : ℚ) / 2 ^ e := by
      rw [le_div_iff₀ (zpow_pos (by norm_num) e)]
      have h52 : (((2 ^ 52 : ℕ) : ℚ)) = (2 : ℚ) ^ (52 : ℤ) := by
        rw [show (52 : ℤ) = ((52 : ℕ) : ℤ) from rfl, zpow_natCast]
        push_cast
        ring
      rw [h52, ← zpow_add₀ (two_ne_zero : (2 : ℚ) ≠ 0),
        show (52 : ℤ) + e = e + 52 from by ring]
      exact h1
    have hfloor : ((2 ^ 52 : ℕ) : ℤ) ≤ ⌊(m : ℚ) / 2 ^ e⌋ := by
      rw [Int.le_floor]
      exact_mod_cast hx52
    have hrhe : ((2 ^ 52 : ℕ) : ℤ) ≤ rhe ((m : ℚ) / 2 ^ e) :=
      le_trans hfloor (rhe_ge_floor _)
    refine ⟨(rhe ((m : ℚ) / 2 ^ e)).toNat * 2 ^ e.toNat, ?_, ?_, ?_, ?_⟩
    · have hnn : 0 ≤ rhe ((m : ℚ) / 2 ^ e) := le_trans (by positivity) hrhe
      push_cast [Int.toNat_of_nonneg hnn]
      rw [← zpow_natCast (2 : ℚ) e.toNat, Int.toNat_of_nonneg (by omega)]
      congr 1
      exact_mod_cast (Int.toNat_of_nonneg hnn).symm
    · have : 1 ≤ (rhe ((m : ℚ) / 2 ^ e)).toNat := by omega
      have : 1 ≤ 2 ^ e.toNat := Nat.one_le_two_pow
      calc 1 = 1 * 1 := rfl
      _ ≤ (rhe ((m : ℚ) / 2 ^ e)).toNat * 2 ^ e.toNat := by
        apply Nat.mul_le_mul <;> omega
    · intro h; omega
    · intro _
      have ha : 2 ^ 52 ≤ (rhe ((m : ℚ) / 2 ^ e)).toNat := by omega
      have hb : 2 ≤ 2 ^ e.toNat := by
        calc 2 = 2 ^ 1 := rfl
        _ ≤ 2 ^ e.toNat := Nat.pow_le_pow_right (by norm_num) (by omega)
      calc (2 : ℕ) ^ 53 = 2 ^ 52 * 2 := by norm_num
      _ ≤ (rhe ((m : ℚ) / 2 ^ e)).toNat * 2 ^ e.toNat := Nat.mul_le_mul ha hb

theorem ceil_natCast_div (v m : ℕ) (hm : 0 < m) :
    ⌈(v : ℚ) / m⌉ = ((v + m - 1) / m : ℕ) := by
  have hmQ : (0 : ℚ) < m := by exact_mod_cast hm
  set n := (v + m - 1) / m with hn
  set r := (v + m - 1) % m with hr
  have hdm : m * n + r = v + m - 1 := Nat.div_add_mod _ m
  have hrlt : r < m := Nat.mod_lt _ hm
  have hvm1 : 1 ≤ v + m := by omega
  zify [hvm1] at hdm
  rw [Int.ceil_eq_iff]
  constructor
  · push_cast
    rw [lt_div_iff₀ hmQ]
    have hZ : ((n : ℤ) - 1) * m < v := by nlinarith [hdm, hrlt]
    calc ((n : ℚ) - 1) * m = (((n : ℤ) - 1) * m : ℤ) := by push_cast; ring
    _ < v := by exact_mod_cast hZ
  · push_cast
    rw [div_le_iff₀ hmQ]
    have hZ : (v : ℤ) ≤ n * m := by nlinarith [hdm, hrlt]
    calc (v : ℚ) = ((v : ℤ) : ℚ) := by push_cast; ring
    _ ≤ ((n * m : ℤ) : ℚ) := by exact_mod_cast hZ
    _ = (n : ℚ) * m := by push_cast; ring

theorem ceil_flq_div (v M : ℕ) (hv1 : 1 ≤ v) (hv : v ≤ 2 ^ 53) (hM : 1 ≤ M) :
    ⌈flq ((v : ℚ) / M)⌉ = ⌈(v : ℚ) / M⌉ := by
  have hMQ : (0 : ℚ) < M := by exact_mod_cast hM
  have h0 : 0 < (v : ℚ) / M := div_pos (by exact_mod_cast hv1) hMQ
  by_cases hdvd : M ∣ v
  · obtain ⟨c, hc⟩ := hdvd
    have hcv : c ≤ v := by
      subst hc
      exact Nat.le_mul_of_pos_left c hM
    have hcle : c ≤ 2 ^ 53 := le_trans hcv hv
    have hq : (v : ℚ) / M = (c : ℚ) := by
      subst hc
      push_cast
      rw [mul_comm]
      exact mul_div_cancel_right₀ _ (by exact_mod_cast (by omega : M ≠ 0))
    rw [hq, flq_natCast hcle]
  · set q : ℚ := (v : ℚ) / M with hqdef
    obtain ⟨e, h1, h2⟩ := exists_scale h0
    have hbounds := flq_bounds h0 h1 h2
    set n : ℕ := v / M with hndef
    set r : ℕ := v % M with hrdef
    have hr1 : 1 ≤ r := by
      rcases Nat.eq_zero_or_pos r with h | h
      · exact absurd (Nat.dvd_of_mod_eq_zero h) hdvd
      · exact h
    have hrM : r < M := Nat.mod_lt v hM
    have hid : M * n + r = v := Nat.div_add_mod v M
    have hidQ : (M : ℚ) * n + r = v := by exact_mod_cast hid
    have hparts : q - n = (r : ℚ) / M := by
      rw [hqdef]
      field_simp
      linarith [hidQ]
    have hq53 : q ≤ ((2 ^ 53 : ℕ) : ℚ) / M := by
      rw [hqdef]
      gcongr
      try exact_mod_cast hv
    have hsplit : (2 : ℚ) ^ (e + 52) = 2 ^ e * 2 ^ (52 : ℤ) := by
      rw [← zpow_add₀ (two_ne_zero : (2 : ℚ) ≠ 0)]
    have h52pos : (0 : ℚ) < 2 ^ (52 : ℤ) := zpow_pos (by norm_num) _
    have hB : ((2 ^ 53 : ℕ) : ℚ) = 2 ^ (52 : ℤ) * 2 := by
      rw [show (52 : ℤ) = ((52 : ℕ) : ℤ) from rfl, zpow_natCast]
      push_cast
      ring
    have hhalf : (2 : ℚ) ^ e / 2 ≤ 1 / M := by
      have hA : (2 : ℚ) ^ e * 2 ^ (52 : ℤ) ≤ ((2 ^ 53 : ℕ) : ℚ) / M := by
        rw [← hsplit]
        exact le_trans h1 hq53
      rw [hB] at hA
      have hA2 : (2 : ℚ) ^ e * 2 ^ (52 : ℤ) * M ≤ 2 ^ (52 : ℤ) * 2 := by
        have := mul_le_mul_of_nonneg_right hA hMQ.le
        rwa [div_mul_cancel₀ _ hMQ.ne'] at this
      rw [div_le_div_iff₀ (by norm_num) hMQ]
      nlinarith [hA2, h52pos]
    have hfrac_ge : 1 / (M : ℚ) ≤ q - n := by
      rw [hparts]
      gcongr
      exact_mod_cast hr1
    have hfrac_le : q - n ≤ 1 - 1 / (M : ℚ) := by
      rw [hparts, div_le_iff₀ hMQ]
      have hrle : (r : ℚ) ≤ (M : ℚ) - 1 := by
        have h' : r ≤ M - 1 := Nat.le_pred_of_lt hrM
        have hcast : ((M - 1 : ℕ) : ℚ) = (M : ℚ) - 1 := by
          push_cast [Nat.cast_sub hM]
          ring
        calc (r : ℚ) ≤ ((M - 1 : ℕ) : ℚ) := by exact_mod_cast h'
        _ = (M : ℚ) - 1 := hcast
      have hexp : (1 - 1 / (M : ℚ)) * M = M - 1 := by field_simp
      rw [hexp]
      exact hrle
    have hup : flq q ≤ (n : ℚ) + 1 := by linarith [hbounds.2, hfrac_le, hhalf]
    have hlow : (n : ℚ) < flq q := by
      by_contra hc
      push_neg at hc
      have heq1 : q - n = 1 / (M : ℚ) :=
        le_antisymm (by linarith [hbounds.1, hhalf]) hfrac_ge
      have heq2 : (2 : ℚ) ^ e / 2 = 1 / M :=
        le_antisymm hhalf (le_trans hfrac_ge (by linarith [hbounds.1]))
      have h2eM : (2 : ℚ) ^ e * M = 2 := by
        field_simp at heq2
        linarith [heq2]
      have hkey : ((2 ^ 53 : ℕ) : ℚ) / M = (2 : ℚ) ^ (e + 52) := by
        rw [hB, hsplit, div_eq_iff hMQ.ne', mul_comm ((2 : ℚ) ^ e), mul_assoc, h2eM]
      have hqeq : q = ((2 ^ 53 : ℕ) : ℚ) / M :=
        le_antisymm hq53 (by rw [hkey]; exact h1)
      have hv53 : v = 2 ^ 53 := by
        have h' := hqeq
        rw [hqdef] at h'
        have hmul := congrArg (fun x : ℚ => x * M) h'
        simp only [div_mul_cancel₀ _ hMQ.ne'] at hmul
        exact_mod_cast hmul
      have hreq : r = 1 := by
        have hrq : (r : ℚ) / M = 1 / M := by rw [← hparts, heq1]
        have hmul := congrArg (fun x : ℚ => x * M) hrq
        simp only [div_mul_cancel₀ _ hMQ.ne'] at hmul
        exact_mod_cast hmul
      have hMn : M * n + 1 = 2 ^ 53 := by rw [← hreq, hid, hv53]
      rcases lt_trichotomy e 1 with helt | heeq | hegt
      · have hM2 : (M : ℚ) = ((2 ^ (1 - e).toNat : ℕ) : ℚ) := by
          have h2epos : (0 : ℚ) < 2 ^ e := zpow_pos (by norm_num) e
          have hMz : (M : ℚ) = 2 ^ ((1 : ℤ) - e) := by
            rw [zpow_sub₀ (two_ne_zero : (2 : ℚ) ≠ 0), zpow_one, eq_div_iff h2epos.ne']
            linarith [h2eM]
          rw [hMz, show (1 : ℤ) - e = (((1 - e).toNat : ℕ) : ℤ) from by omega,
            zpow_natCast]
          push_cast
          simp
          omega
        have hMeq : M = 2 ^ (1 - e).toNat := by exact_mod_cast hM2
        obtain ⟨k, hk⟩ : 2 ∣ M := by
          rw [hMeq]
          exact dvd_pow_self 2 (by omega)
        rw [hk, mul_assoc] at hMn
        generalize k * n = p at hMn
        omega
      · subst heeq
        have hM1 : M = 1 := by
          rw [zpow_one] at h2eM
          have : (M : ℚ) = 1 := by linarith
          exact_mod_cast this
        omega
      · have h4 : (4 : ℚ) ≤ 2 ^ e := by
          calc (4 : ℚ) = 2 ^ (2 : ℤ) := by norm_num
          _ ≤ 2 ^ e := zpow_le_zpow_right₀ (by norm_num) (by omega)
        have hM1Q : (1 : ℚ) ≤ M := by exact_mod_cast hM
        nlinarith [h2eM, h4, hM1Q]
    have hceilflq : ⌈flq q⌉ = (n : ℤ) + 1 := by
      rw [Int.ceil_eq_iff]
      constructor
      · push_cast
        linarith [hlow]
      · push_cast
        linarith [hup]
    have hceilq : ⌈q⌉ = (n : ℤ) + 1 := by
      have hMinv : (0 : ℚ) < 1 / M := div_pos one_pos hMQ
      rw [Int.ceil_eq_iff]
      constructor
      · push_cast
        linarith [hfrac_ge, hMinv]
      · push_cast
        linarith [hfrac_le, hMinv]
    rw [hceilflq, hceilq]

/-- C6 (amended): for every `u64` value `v ≤ 2^53` and every `u64` multiple
`m > 0`, `ceil_multiple(v, m)` equals the exact mathematical `⌈v/m⌉ · m`
despite the `f64` detour; above `2^53` the `u64 → f64` conversion is no
longer exact and the equality fails. -/
theorem ceil_multiple_exact (v m : ℕ) (hv : v ≤ 2 ^ 53) (hm : 0 < m)
    (hm64 : m < 2 ^ 64) :
    ceil_multiple v m = specCeilMultiple v m := by
  obtain ⟨M, hMeq, hM1, hMsmall, hMbig⟩ := flq_nat m hm
  have hfl0 : flq (0 : ℚ) = 0 := by simp [flq]
  rcases Nat.eq_zero_or_pos v with hv0 | hv1
  · subst hv0
    unfold ceil_multiple specCeilMultiple
    rw [Nat.cast_zero, hfl0, hMeq, zero_div, hfl0]
    simp [Nat.div_eq_of_lt (show m - 1 < m by omega)]
  · unfold ceil_multiple
    rw [flq_natCast hv, hMeq, ceil_flq_div v M hv1 hv hM1]
    rcases le_or_lt m (2 ^ 53) with hsmall | hbig
    · rw [hMsmall hsmall, ceil_natCast_div v m hm, Int.toNat_natCast]
      have hcm : (v + m - 1) / m * m ≤ v + m - 1 := Nat.div_mul_le_self _ _
      have hcbound : (v + m - 1) / m ≤ v + m - 1 := Nat.div_le_self _ _
      rw [Nat.min_eq_left (by omega)]
      unfold specCeilMultiple
      exact Nat.mod_eq_of_lt (by omega)
    · have hM53 := hMbig hbig
      have hvM : v ≤ M := le_trans hv hM53
      have hceil1 : ⌈(v : ℚ) / M⌉ = 1 := by
        rw [Int.ceil_eq_iff]
        constructor
        · push_cast
          simpa using div_pos (show (0 : ℚ) < v by exact_mod_cast hv1)
            (show (0 : ℚ) < M by exact_mod_cast hM1)
        · push_cast
          rw [div_le_one (show (0 : ℚ) < M by exact_mod_cast hM1)]
          exact_mod_cast hvM
      rw [hceil1, show (1 : ℤ).toNat = 1 from rfl,
        Nat.min_eq_left (by omega), one_mul, Nat.mod_eq_of_lt hm64]
      unfold specCeilMultiple
      have hdiv1 : (v + m - 1) / m = 1 :=
        Nat.div_eq_of_lt_le (by omega) (by omega)
      rw [hdiv1, one_mul]

theorem ceil_multiple_def (value multiple : ℕ) :
    ceil_multiple value multiple =
      min (⌈flq (flq value / flq multiple)⌉.toNat) (2 ^ 64 - 1) * multiple % 2 ^ 64 :=
  rfl

theorem flq_pow53_succ : flq (((2 ^ 53 + 1 : ℕ) : ℚ)) = 2 ^ 53 := by
  have h0 : (0 : ℚ) < ((2 ^ 53 + 1 : ℕ) : ℚ) := by positivity
  have h1 : (2 : ℚ) ^ ((1 : ℤ) + 52) ≤ ((2 ^ 53 + 1 : ℕ) : ℚ) := by
    rw [show (1 : ℤ) + 52 = ((53 : ℕ) : ℤ) from rfl, zpow_natCast]
    push_cast
    norm_num
  have h2 : ((2 ^ 53 + 1 : ℕ) : ℚ) < (2 : ℚ) ^ ((1 : ℤ) + 53) := by
    rw [show (1 : ℤ) + 53 = ((54 : ℕ) : ℤ) from rfl, zpow_natCast]
    push_cast
    norm_num
  rw [flq_eq_scale h0 h1 h2]
  have hx : ((2 ^ 53 + 1 : ℕ) : ℚ) / 2 ^ (1 : ℤ) = ((2 ^ 52 : ℕ) : ℚ) + 1 / 2 := by
    rw [zpow_one]
    push_cast
    ring
  rw [hx]
  have hfloor : ⌊((2 ^ 52 : ℕ) : ℚ) + 1 / 2⌋ = ((2 ^ 52 : ℕ) : ℤ) := by
    rw [Int.floor_eq_iff]
    constructor
    · push_cast
      norm_num
    · push_cast
      norm_num
  have heven : Even ((2 ^ 52 : ℕ) : ℤ) := ⟨2 ^ 51, by norm_num⟩
  unfold rhe
  rw [hfloor]
  have hfrac : ((2 ^ 52 : ℕ) : ℚ) + 1 / 2 - (((2 ^ 52 : ℕ) : ℤ) : ℚ) = 1 / 2 := by
    push_cast
    ring
  rw [hfrac, if_neg (by norm_num), if_neg (by norm_num), if_pos heven, zpow_one]
  push_cast
  ring

/-- C6 counterexample: at `v = 2^53 + 1`, `m = 1` the conversion of `v` to
`f64` rounds (ties-to-even) down to `2^53`, so `ceil_multiple` returns
`2^53` while the exact `⌈v/m⌉·m` is `2^53 + 1`. -/
theorem ceil_multiple_precision_loss :
    ceil_multiple (2 ^ 53 + 1) 1 = 2 ^ 53 ∧
      specCeilMultiple (2 ^ 53 + 1) 1 = 2 ^ 53 + 1 ∧
      ceil_multiple (2 ^ 53 + 1) 1 ≠ specCeilMultiple (2 ^ 53 + 1) 1 := by
  have hone : flq (((1 : ℕ) : ℚ)) = 1 := by
    rw [flq_natCast (by norm_num)]
    norm_num
  have h53 : flq ((2 : ℚ) ^ 53) = 2 ^ 53 := by
    have := flq_natCast (le_refl (2 ^ 53))
    rw [show (((2 ^ 53 : ℕ)) : ℚ) = (2 : ℚ) ^ 53 from by push_cast; ring] at this
    exact this
  have hinner :
      ⌈flq (flq (((2 ^ 53 + 1 : ℕ)) : ℚ) / flq (((1 : ℕ)) : ℚ))⌉.toNat = 2 ^ 53 := by
    rw [flq_pow53_succ, hone, div_one, h53,
      show ((2 : ℚ) ^ 53) = (((2 ^ 53 : ℕ)) : ℚ) from by push_cast; ring,
      Int.ceil_natCast, Int.toNat_natCast]
  have hlhs : ceil_multiple (2 ^ 53 + 1) 1 = 2 ^ 53 := by
    rw [ceil_multiple_def, hinner, Nat.min_eq_left (by norm_num), mul_one]
    exact Nat.mod_eq_of_lt (by norm_num)
  refine ⟨hlhs, by norm_num [specCeilMultiple], ?_⟩
  rw [hlhs]
  norm_num [specCeilMultiple]

/-- Witness for `ceil_multiple_exact` at `v = 6`, `m = 5`. -/
theorem ceil_multiple_exact_witness :
    ceil_multiple 6 5 = specCeilMultiple 6 5 ∧ specCeilMultiple 6 5 = 10 :=
  ⟨ceil_multiple_exact 6 5 (by norm_num) (by norm_num) (by norm_num),
    by norm_num [specCeilMultiple]⟩

end Juno
